import Mathlib

/-!
Shallow embedding of the wave-field shader in `src/main.js` (Three.js water
scene).  The GLSL vertex shader computes a scalar `elevation` from the vertex
position, the time uniform and eight wave parameters; the fragment shader
mixes two colors by that elevation.  GLSL floats are modelled as real numbers,
`fract` as `Int.fract` and componentwise vectors as explicit records.
-/

open Real

noncomputable section

/-- A 3-component vector of reals, modelling GLSL `vec3`. -/
structure Vec3 where
  x : ℝ
  y : ℝ
  z : ℝ

/-- The shader uniforms that drive the wave field (the `vec2`
`uBigWavesFrequency` is split into its two components).  All are GLSL floats,
including `uSmallIterations`, which the GUI sets to integers 0..5. -/
structure WaveParams where
  uBigWavesElevation : ℝ
  uBigWavesFrequencyX : ℝ
  uBigWavesFrequencyY : ℝ
  uBigWavesSpeed : ℝ
  uSmallWavesElevation : ℝ
  uSmallWavesFrequency : ℝ
  uSmallWavesSpeed : ℝ
  uSmallIterations : ℝ

/-- The shader's pseudo-noise function `cnoise`, line for line:

    const vec3 G = vec3(0.030231, 0.070053, 0.010381);
    vec3 p = floor(P + dot(P, vec3(0.3333333))) + G;
    return fract(sin(dot(p, vec3(12.9898, 78.233, 39.346))) * 43758.5453);

`dot(P, vec3(0.3333333))` is the scalar `0.3333333·(Px+Py+Pz)`, added to every
component before the componentwise `floor`; the offset `G` is then added. -/
def cnoise (P : Vec3) : ℝ :=
  let s : ℝ := P.x * 0.3333333 + P.y * 0.3333333 + P.z * 0.3333333
  let px : ℝ := (⌊P.x + s⌋ : ℝ) + 0.030231
  let py : ℝ := (⌊P.y + s⌋ : ℝ) + 0.070053
  let pz : ℝ := (⌊P.z + s⌋ : ℝ) + 0.010381
  Int.fract (Real.sin (px * 12.9898 + py * 78.233 + pz * 39.346) * 43758.5453)

/-- The large-scale swell, the first assignment to `elevation` in the vertex
shader `main`:
`sin(x·freqX + t·speed) · sin(z·freqY + t·speed) · uBigWavesElevation`. -/
def bigWaveTerm (x z t : ℝ) (p : WaveParams) : ℝ :=
  Real.sin (x * p.uBigWavesFrequencyX + t * p.uBigWavesSpeed) *
    Real.sin (z * p.uBigWavesFrequencyY + t * p.uBigWavesSpeed) *
    p.uBigWavesElevation

/-- The body of iteration `i` of the octave loop:
`abs(cnoise(vec3(modelPosition.xz * uSmallWavesFrequency * i, uTime * uSmallWavesSpeed))
     * uSmallWavesElevation / i)`. -/
def octaveTerm (x z t : ℝ) (p : WaveParams) (i : ℕ) : ℝ :=
  |cnoise ⟨x * p.uSmallWavesFrequency * i, z * p.uSmallWavesFrequency * i,
      t * p.uSmallWavesSpeed⟩ * p.uSmallWavesElevation / i|

/-- Number of iterations of `for (float i = 1.0; i <= uSmallIterations; i++)`:
the float counter takes the exact values 1, 2, 3, …, so the loop body runs for
the integers `i` with `1 ≤ i ≤ n`, that is `⌊n⌋` times when `n ≥ 1` and `0`
times otherwise (in particular for any `n < 1`, negatives included). -/
def iterCount (n : ℝ) : ℕ :=
  (⌊n⌋).toNat

/-- The elevation computed by the vertex shader `main`: the large-scale swell,
minus the octave-loop terms for `i = 1 .. uSmallIterations`. -/
def elevation (x z t : ℝ) (p : WaveParams) : ℝ :=
  bigWaveTerm x z t p -
    ∑ i in Finset.Icc 1 (iterCount p.uSmallIterations), octaveTerm x z t p i

/-- The observable output of the vertex shader `main` for one vertex: the
model-space position it forwards to the matrix pipeline
(`gl_Position = projectionMatrix * modelViewMatrix * vec4(modelPosition, 1.0)`)
and the varying `vElevation`.  The source assigns
`vec3 modelPosition = position;`, computes `elevation`, and never writes to
`modelPosition` again. -/
def vertexMain (position : Vec3) (t : ℝ) (p : WaveParams) : Vec3 × ℝ :=
  let modelPosition := position
  let e := elevation modelPosition.x modelPosition.z t p
  (modelPosition, e)

/-- GLSL `mix(x, y, a)` on `vec3` with scalar interpolant:
componentwise `x·(1-a) + y·a`, with no clamping of `a`. -/
def mix3 (d s : Vec3) (a : ℝ) : Vec3 :=
  ⟨d.x * (1 - a) + s.x * a, d.y * (1 - a) + s.y * a, d.z * (1 - a) + s.z * a⟩

/-- The fragment shader `main`: `vec3 color = mix(uDepthColor, uSurfaceColor, vElevation)`. -/
def fragmentColor (uDepthColor uSurfaceColor : Vec3) (vElevation : ℝ) : Vec3 :=
  mix3 uDepthColor uSurfaceColor vElevation

/-- The uniform values installed at startup (`waterMaterial.uniforms`). -/
def defaultParams : WaveParams :=
  { uBigWavesElevation := 0.15
    uBigWavesFrequencyX := 1
    uBigWavesFrequencyY := 1
    uBigWavesSpeed := 0.75
    uSmallWavesElevation := 0.15
    uSmallWavesFrequency := 3
    uSmallWavesSpeed := 0.2
    uSmallIterations := 4 }

/-- Replace only the `uSmallIterations` field of a parameter set. -/
def setIterations (p : WaveParams) (n : ℝ) : WaveParams :=
  { p with uSmallIterations := n }

/-- The pseudo-noise formula exactly as the specification claims it: the
lattice point is `floor(P + dot(P, vec3(0.3333333)))` with no further offset,
and only the three constants `0.3333333`, `(12.9898, 78.233, 39.346)` and
`43758.5453` appear.  To be compared with `cnoise` from the source. -/
def cnoiseClaim (P : Vec3) : ℝ :=
  let s : ℝ := P.x * 0.3333333 + P.y * 0.3333333 + P.z * 0.3333333
  Int.fract (Real.sin ((⌊P.x + s⌋ : ℝ) * 12.9898 + (⌊P.y + s⌋ : ℝ) * 78.233 +
    (⌊P.z + s⌋ : ℝ) * 39.346) * 43758.5453)

/-- The pseudo-noise formula as amended: the lattice point
`floor(P + dot(P, vec3(0.3333333)))` is offset by the fourth fixed constant
`G = (0.030231, 0.070053, 0.010381)` before the dot with
`(12.9898, 78.233, 39.346)` and the `fract(sin(·) · 43758.5453)` fold.
Written from the amended wording, to be compared with `cnoise`. -/
def cnoiseAmended (P : Vec3) : ℝ :=
  let lx : ℝ := (⌊P.x + (P.x + P.y + P.z) * 0.3333333⌋ : ℝ) + 0.030231
  let ly : ℝ := (⌊P.y + (P.x + P.y + P.z) * 0.3333333⌋ : ℝ) + 0.070053
  let lz : ℝ := (⌊P.z + (P.x + P.y + P.z) * 0.3333333⌋ : ℝ) + 0.010381
  Int.fract (Real.sin (lx * 12.9898 + ly * 78.233 + lz * 39.346) * 43758.5453)

/-! ### Numeric evaluation of `cnoise` at the origin

At `P = (0,0,0)` the lattice point is exactly the offset `G`, so the sine
argument is the rational constant
`0.030231·12.9898 + 0.070053·78.233 + 0.010381·39.346 = 6.2816018188`,
which happens to lie just below `2π`; interval bounds on `sin` near `2π` pin
`sin(6.2816018188) · 43758.5453` strictly between `-70` and `-69`. -/

lemma sin_c_bounds :
    -(0.0015842 : ℝ) < Real.sin 6.2816018188 ∧
      Real.sin 6.2816018188 < -(0.00158218 : ℝ) + 0.000000001 := by
  have hπl : (3.141592 : ℝ) < π := Real.pi_gt_d6
  have hπu : π < (3.141593 : ℝ) := Real.pi_lt_d6
  obtain ⟨u, hu⟩ : ∃ u : ℝ, u = 2 * π - 6.2816018188 := ⟨_, rfl⟩
  have hu0 : (0 : ℝ) < u := by rw [hu]; nlinarith
  have hult : u < 0.0015842 := by rw [hu]; nlinarith
  have hugt : (0.00158218 : ℝ) < u := by rw [hu]; nlinarith
  have hu1 : u ≤ 1 := by nlinarith
  have hsd : Real.sin 6.2816018188 = -Real.sin u := by
    have h := Real.sin_two_pi_sub u
    rw [show 2 * π - u = 6.2816018188 by rw [hu]; ring] at h
    exact h
  have hlt : Real.sin u < u := Real.sin_lt hu0
  have hgt : u - u ^ 3 / 4 < Real.sin u := Real.sin_gt_sub_cube hu0 hu1
  have hcube : u ^ 3 < (0.0015842 : ℝ) ^ 3 := by
    have := pow_lt_pow_left₀ hult hu0.le (n := 3)
    simpa using this
  constructor
  · rw [hsd]; nlinarith
  · rw [hsd]; nlinarith

lemma cnoise_zero_eq :
    cnoise ⟨0, 0, 0⟩ = Int.fract (Real.sin 6.2816018188 * 43758.5453) := by
  unfold cnoise
  norm_num

lemma floor_sin_c : ⌊Real.sin 6.2816018188 * 43758.5453⌋ = -70 := by
  obtain ⟨h1, h2⟩ := sin_c_bounds
  rw [Int.floor_eq_iff]
  constructor
  · push_cast
    nlinarith
  · push_cast
    nlinarith

/-- `cnoise` at the origin is strictly between `0.67` and `0.77`. -/
lemma cnoise_zero_bounds :
    (0.67 : ℝ) < cnoise ⟨0, 0, 0⟩ ∧ cnoise ⟨0, 0, 0⟩ < 0.77 := by
  obtain ⟨h1, h2⟩ := sin_c_bounds
  rw [cnoise_zero_eq, Int.fract, floor_sin_c]
  constructor
  · push_cast
    nlinarith
  · push_cast
    nlinarith

lemma cnoise_zero_pos : (0 : ℝ) < cnoise ⟨0, 0, 0⟩ := by
  have h := cnoise_zero_bounds.1
  norm_num at h ⊢
  linarith

/-! ### Elementary facts about the embedded definitions -/

lemma cnoise_nonneg (P : Vec3) : 0 ≤ cnoise P :=
  Int.fract_nonneg _

lemma cnoise_lt_one (P : Vec3) : cnoise P < 1 :=
  Int.fract_lt_one _

lemma iterCount_natCast (n : ℕ) : iterCount (n : ℝ) = n := by
  unfold iterCount
  rw [Int.floor_natCast, Int.toNat_natCast]

lemma octaveTerm_nonneg (x z t : ℝ) (p : WaveParams) (i : ℕ) :
    0 ≤ octaveTerm x z t p i :=
  abs_nonneg _

/-- At the origin with the startup uniforms the large swell vanishes but each
of the four octave iterations subtracts `cnoise(0,0,0) · 0.15 / i`. -/
lemma elevation_default_origin :
    elevation 0 0 0 defaultParams = -(cnoise ⟨0, 0, 0⟩ * 0.15 * (25 / 12)) := by
  have hc : (0 : ℝ) ≤ cnoise ⟨0, 0, 0⟩ := cnoise_nonneg _
  have hbig : bigWaveTerm 0 0 0 defaultParams = 0 := by
    unfold bigWaveTerm defaultParams
    norm_num
  have hoct : ∀ i : ℕ, octaveTerm 0 0 0 defaultParams i = cnoise ⟨0, 0, 0⟩ * 0.15 / i := by
    intro i
    unfold octaveTerm defaultParams
    norm_num
    positivity
  have hcount : iterCount defaultParams.uSmallIterations = 4 := by
    show iterCount (4 : ℝ) = 4
    rw [show ((4 : ℝ)) = ((4 : ℕ) : ℝ) by norm_num, iterCount_natCast]
  have hIcc : (Finset.Icc 1 4 : Finset ℕ) = {1, 2, 3, 4} := by decide
  unfold elevation
  rw [hcount, hIcc, Finset.sum_insert (by decide), Finset.sum_insert (by decide),
    Finset.sum_insert (by decide), Finset.sum_singleton, hbig, hoct 1, hoct 2, hoct 3, hoct 4]
  push_cast
  ring

lemma elevation_default_origin_neg : elevation 0 0 0 defaultParams < 0 := by
  rw [elevation_default_origin]
  have := cnoise_zero_pos
  nlinarith

/-- Writing `elevation` for a parameter set whose iteration count is the
natural number `m`: the loop runs exactly for `i = 1 .. m`. -/
lemma elevation_setIterations (x z t : ℝ) (p : WaveParams) (m : ℕ) :
    elevation x z t (setIterations p (m : ℝ))
      = bigWaveTerm x z t p - ∑ i in Finset.Icc 1 m, octaveTerm x z t p i := by
  have h : iterCount (setIterations p (m : ℝ)).uSmallIterations = m := by
    show iterCount ((m : ℕ) : ℝ) = m
    exact iterCount_natCast m
  unfold elevation
  rw [h]
  rfl

/-! ### Claims -/

/-- C1: the vertex shader never applies the computed elevation to the vertex
position.  The position forwarded to `gl_Position` is the unmodified input for
every vertex, time and parameter set, even though at the default uniforms the
elevation at the origin is nonzero — so the claimed y-displacement never
happens. -/
theorem vertex_position_not_displaced :
    (∀ (pos : Vec3) (t : ℝ) (p : WaveParams), (vertexMain pos t p).1 = pos) ∧
      (vertexMain ⟨0, 0, 0⟩ 0 defaultParams).2 ≠ 0 := by
  refine ⟨fun pos t p => rfl, ?_⟩
  show elevation 0 0 0 defaultParams ≠ 0
  exact ne_of_lt elevation_default_origin_neg

/-- C3 counterexample: at `P = (0,0,0)` the formula claimed by the
specification evaluates to `0`, while the source's `cnoise` — which adds the
offset `G = (0.030231, 0.070053, 0.010381)` to the lattice point — does not. -/
theorem cnoise_ne_claimed_formula_at_zero :
    cnoise ⟨0, 0, 0⟩ ≠ cnoiseClaim ⟨0, 0, 0⟩ := by
  have h : cnoiseClaim ⟨0, 0, 0⟩ = 0 := by
    unfold cnoiseClaim
    norm_num
  rw [h]
  exact ne_of_gt cnoise_zero_pos

/-- C3 amended: the source's noise function equals the claimed fold once the
lattice point is offset by the fourth constant `G` before the dot product. -/
theorem cnoise_eq_amended_formula (P : Vec3) : cnoise P = cnoiseAmended P := by
  simp only [cnoise, cnoiseAmended]
  rw [show P.x + (P.x * 0.3333333 + P.y * 0.3333333 + P.z * 0.3333333)
      = P.x + (P.x + P.y + P.z) * 0.3333333 by ring,
    show P.y + (P.x * 0.3333333 + P.y * 0.3333333 + P.z * 0.3333333)
      = P.y + (P.x + P.y + P.z) * 0.3333333 by ring,
    show P.z + (P.x * 0.3333333 + P.y * 0.3333333 + P.z * 0.3333333)
      = P.z + (P.x + P.y + P.z) * 0.3333333 by ring]

/-- C7 counterexample: with the startup uniforms (which include
`uSmallIterations = 4`) the elevation at `x = 0, z = 0, t = 0` is not `0`: the
large swell vanishes there, but the octave loop subtracts four strictly
positive noise terms. -/
theorem elevation_default_origin_ne_zero :
    elevation 0 0 0 defaultParams ≠ 0 :=
  ne_of_lt elevation_default_origin_neg

/-- C7 amended: at the origin at `t = 0` with the startup uniforms the
large-swell factor `sin(0)·sin(0)·0.15` is `0`, and the whole elevation equals
the negated fine-detail sum `-(cnoise(0,0,0) · 0.15 · (1 + 1/2 + 1/3 + 1/4))`,
which is strictly negative. -/
theorem elevation_default_origin_value :
    bigWaveTerm 0 0 0 defaultParams = 0 ∧
      elevation 0 0 0 defaultParams = -(cnoise ⟨0, 0, 0⟩ * 0.15 * (25 / 12)) ∧
      elevation 0 0 0 defaultParams < 0 := by
  refine ⟨?_, elevation_default_origin, elevation_default_origin_neg⟩
  unfold bigWaveTerm defaultParams
  norm_num

/-- C9: the pseudo-noise function is a pure function of its input vector:
evaluations at equal inputs give equal outputs, and so do the octave terms of
the loop at equal position, time and octave index. -/
theorem cnoise_deterministic (a b c a' b' c' x z t x' z' t' : ℝ)
    (p : WaveParams) (i i' : ℕ)
    (h1 : a = a') (h2 : b = b') (h3 : c = c')
    (hx : x = x') (hz : z = z') (ht : t = t') (hi : i = i') :
    cnoise ⟨a, b, c⟩ = cnoise ⟨a', b', c'⟩ ∧
      octaveTerm x z t p i = octaveTerm x' z' t' p i' := by
  subst h1 h2 h3 hx hz ht hi
  exact ⟨rfl, rfl⟩

/-- C9 witness. -/
theorem cnoise_deterministic_witness :
    (1 : ℝ) = 1 ∧
      (cnoise ⟨1, 2, 3⟩ = cnoise ⟨1, 2, 3⟩ ∧
        octaveTerm 1 2 3 defaultParams 2 = octaveTerm 1 2 3 defaultParams 2) :=
  ⟨rfl, cnoise_deterministic 1 2 3 1 2 3 1 2 3 1 2 3 defaultParams 2 2
    rfl rfl rfl rfl rfl rfl rfl⟩

/-- C2: with an integer iteration count `n` and the documented range
`uSmallWavesElevation ≥ 0`, the fine-detail loop subtracts exactly
`|noise((x,z)·f·i, t·s)| · smallElevation / i` for `i = 1 .. n`, and `n = 0`
subtracts nothing. -/
theorem fineDetail_octave_sum (x z t : ℝ) (p : WaveParams) (n : ℕ)
    (hn : p.uSmallIterations = (n : ℝ)) (he : 0 ≤ p.uSmallWavesElevation) :
    elevation x z t p
        = bigWaveTerm x z t p
          - ∑ i in Finset.Icc 1 n,
              |cnoise ⟨x * p.uSmallWavesFrequency * i, z * p.uSmallWavesFrequency * i,
                  t * p.uSmallWavesSpeed⟩| * p.uSmallWavesElevation / i
      ∧ (n = 0 → elevation x z t p = bigWaveTerm x z t p) := by
  have hcount : iterCount p.uSmallIterations = n := by rw [hn, iterCount_natCast]
  have hsum : ∀ i ∈ Finset.Icc 1 n, octaveTerm x z t p i
      = |cnoise ⟨x * p.uSmallWavesFrequency * i, z * p.uSmallWavesFrequency * i,
          t * p.uSmallWavesSpeed⟩| * p.uSmallWavesElevation / i := by
    intro i hi
    have hi1 : 1 ≤ i := (Finset.mem_Icc.mp hi).1
    have hipos : (0 : ℝ) < (i : ℝ) := by exact_mod_cast hi1
    unfold octaveTerm
    rw [abs_div, abs_mul, abs_of_nonneg he, abs_of_pos hipos]
  constructor
  · unfold elevation
    rw [hcount, Finset.sum_congr rfl hsum]
  · intro h0
    subst h0
    unfold elevation
    rw [hcount, show (Finset.Icc 1 0 : Finset ℕ) = ∅ from by decide, Finset.sum_empty,
      sub_zero]

/-- C2 witness. -/
theorem fineDetail_octave_sum_witness :
    defaultParams.uSmallIterations = ((4 : ℕ) : ℝ) ∧
      (0 : ℝ) ≤ defaultParams.uSmallWavesElevation ∧
      (elevation 0 0 0 defaultParams
          = bigWaveTerm 0 0 0 defaultParams
            - ∑ i in Finset.Icc (1 : ℕ) 4,
                |cnoise ⟨0 * defaultParams.uSmallWavesFrequency * (i : ℝ),
                    0 * defaultParams.uSmallWavesFrequency * (i : ℝ),
                    0 * defaultParams.uSmallWavesSpeed⟩| *
                  defaultParams.uSmallWavesElevation / (i : ℝ)
        ∧ (4 = 0 → elevation 0 0 0 defaultParams = bigWaveTerm 0 0 0 defaultParams)) :=
  ⟨by norm_num [defaultParams], by norm_num [defaultParams],
    fineDetail_octave_sum 0 0 0 defaultParams 4 (by norm_num [defaultParams])
      (by norm_num [defaultParams])⟩

/-- C4: with `uSmallIterations = 0` the evaluator's output is exactly the
product of the two travelling sine waves and the big-wave amplitude. -/
theorem elevation_zero_iterations (x z t : ℝ) (p : WaveParams)
    (h : p.uSmallIterations = 0) :
    elevation x z t p
      = Real.sin (x * p.uBigWavesFrequencyX + t * p.uBigWavesSpeed) *
          Real.sin (z * p.uBigWavesFrequencyY + t * p.uBigWavesSpeed) *
          p.uBigWavesElevation := by
  have hcount : iterCount p.uSmallIterations = 0 := by
    rw [h]
    unfold iterCount
    norm_num
  unfold elevation
  rw [hcount, show (Finset.Icc 1 0 : Finset ℕ) = ∅ from by decide, Finset.sum_empty,
    sub_zero]
  rfl

/-- C4 witness. -/
theorem elevation_zero_iterations_witness :
    (setIterations defaultParams 0).uSmallIterations = 0 ∧
      elevation 1 2 3 (setIterations defaultParams 0)
        = Real.sin (1 * (setIterations defaultParams 0).uBigWavesFrequencyX +
              3 * (setIterations defaultParams 0).uBigWavesSpeed) *
            Real.sin (2 * (setIterations defaultParams 0).uBigWavesFrequencyY +
              3 * (setIterations defaultParams 0).uBigWavesSpeed) *
            (setIterations defaultParams 0).uBigWavesElevation :=
  ⟨rfl, elevation_zero_iterations 1 2 3 (setIterations defaultParams 0) rfl⟩

/-- C5: with the documented non-negative amplitudes and an integer iteration
count `n`, the evaluator's magnitude is bounded by
`bigElevation + smallElevation · Σ 1/i`. -/
theorem elevation_amplitude_bound (x z t : ℝ) (p : WaveParams) (n : ℕ)
    (hn : p.uSmallIterations = (n : ℝ)) (hb : 0 ≤ p.uBigWavesElevation)
    (hs : 0 ≤ p.uSmallWavesElevation) :
    |elevation x z t p|
      ≤ p.uBigWavesElevation
          + p.uSmallWavesElevation * ∑ i in Finset.Icc 1 n, (1 : ℝ) / i := by
  have hcount : iterCount p.uSmallIterations = n := by rw [hn, iterCount_natCast]
  have hbig : |bigWaveTerm x z t p| ≤ p.uBigWavesElevation := by
    unfold bigWaveTerm
    rw [abs_mul, abs_mul, abs_of_nonneg hb]
    have h1 := Real.abs_sin_le_one (x * p.uBigWavesFrequencyX + t * p.uBigWavesSpeed)
    have h2 := Real.abs_sin_le_one (z * p.uBigWavesFrequencyY + t * p.uBigWavesSpeed)
    have hn1 := abs_nonneg (Real.sin (x * p.uBigWavesFrequencyX + t * p.uBigWavesSpeed))
    have hn2 := abs_nonneg (Real.sin (z * p.uBigWavesFrequencyY + t * p.uBigWavesSpeed))
    have hab : |Real.sin (x * p.uBigWavesFrequencyX + t * p.uBigWavesSpeed)| *
        |Real.sin (z * p.uBigWavesFrequencyY + t * p.uBigWavesSpeed)| ≤ 1 := by
      nlinarith
    nlinarith [hab, hb]
  have hterm : ∀ i ∈ Finset.Icc 1 n,
      octaveTerm x z t p i ≤ p.uSmallWavesElevation * (1 / i) := by
    intro i hi
    have hi1 : 1 ≤ i := (Finset.mem_Icc.mp hi).1
    have hipos : (0 : ℝ) < (i : ℝ) := by exact_mod_cast hi1
    have hc0 := cnoise_nonneg ⟨x * p.uSmallWavesFrequency * i,
      z * p.uSmallWavesFrequency * i, t * p.uSmallWavesSpeed⟩
    have hc1 := cnoise_lt_one ⟨x * p.uSmallWavesFrequency * i,
      z * p.uSmallWavesFrequency * i, t * p.uSmallWavesSpeed⟩
    unfold octaveTerm
    rw [abs_div, abs_mul, abs_of_nonneg hs, abs_of_pos hipos, abs_of_nonneg hc0,
      mul_one_div]
    exact (div_le_div_iff_of_pos_right hipos).mpr (by nlinarith)
  have hS0 : 0 ≤ ∑ i in Finset.Icc 1 n, octaveTerm x z t p i :=
    Finset.sum_nonneg fun i _ => octaveTerm_nonneg x z t p i
  have hS : ∑ i in Finset.Icc 1 n, octaveTerm x z t p i
      ≤ p.uSmallWavesElevation * ∑ i in Finset.Icc 1 n, (1 : ℝ) / i := by
    rw [Finset.mul_sum]
    exact Finset.sum_le_sum hterm
  unfold elevation
  rw [hcount]
  calc |bigWaveTerm x z t p - ∑ i in Finset.Icc 1 n, octaveTerm x z t p i|
      ≤ |bigWaveTerm x z t p| + |∑ i in Finset.Icc 1 n, octaveTerm x z t p i| :=
        abs_sub _ _
    _ = |bigWaveTerm x z t p| + ∑ i in Finset.Icc 1 n, octaveTerm x z t p i := by
        rw [abs_of_nonneg hS0]
    _ ≤ _ := by linarith

/-- C5 witness. -/
theorem elevation_amplitude_bound_witness :
    defaultParams.uSmallIterations = ((4 : ℕ) : ℝ) ∧
      (0 : ℝ) ≤ defaultParams.uBigWavesElevation ∧
      (0 : ℝ) ≤ defaultParams.uSmallWavesElevation ∧
      |elevation 0 0 0 defaultParams|
        ≤ defaultParams.uBigWavesElevation
            + defaultParams.uSmallWavesElevation *
                ∑ i in Finset.Icc (1 : ℕ) 4, (1 : ℝ) / (i : ℝ) :=
  ⟨by norm_num [defaultParams], by norm_num [defaultParams], by norm_num [defaultParams],
    elevation_amplitude_bound 0 0 0 defaultParams 4 (by norm_num [defaultParams])
      (by norm_num [defaultParams]) (by norm_num [defaultParams])⟩

/-- C6: the per-pixel color is the unclamped affine interpolation: it is the
depth color at `e = 0`, the surface color at `e = 1`, equals
`depthColor·(1-e) + surfaceColor·e` componentwise for every `e`, and commutes
with affine combinations of arbitrary (also out-of-range) elevations. -/
theorem fragment_color_affine (d s : Vec3) (e : ℝ) :
    fragmentColor d s 0 = d ∧ fragmentColor d s 1 = s ∧
      fragmentColor d s e
        = ⟨d.x * (1 - e) + s.x * e, d.y * (1 - e) + s.y * e, d.z * (1 - e) + s.z * e⟩ ∧
      ∀ θ e₁ e₂ : ℝ, fragmentColor d s ((1 - θ) * e₁ + θ * e₂)
          = mix3 (fragmentColor d s e₁) (fragmentColor d s e₂) θ := by
  obtain ⟨dx, dy, dz⟩ := d
  obtain ⟨sx, sy, sz⟩ := s
  refine ⟨?_, ?_, rfl, fun θ e₁ e₂ => ?_⟩ <;>
    · simp only [fragmentColor, mix3, Vec3.mk.injEq]
      refine ⟨by ring, by ring, by ring⟩

/-- C8: the evaluator is total over all numeric inputs — in this embedding
every input yields a value — and a negative `uSmallIterations` makes the
octave loop run zero times, leaving exactly the large-scale swell. -/
theorem elevation_total_negative_iterations (x z t : ℝ) (p : WaveParams)
    (h : p.uSmallIterations < 0) :
    iterCount p.uSmallIterations = 0 ∧ elevation x z t p = bigWaveTerm x z t p := by
  have h0 : iterCount p.uSmallIterations = 0 := by
    unfold iterCount
    apply Int.toNat_of_nonpos
    have hlt : p.uSmallIterations < ((0 : ℤ) : ℝ) := by exact_mod_cast h
    exact (Int.floor_lt.mpr hlt).le
  refine ⟨h0, ?_⟩
  unfold elevation
  rw [h0, show (Finset.Icc 1 0 : Finset ℕ) = ∅ from by decide, Finset.sum_empty, sub_zero]

/-- C8 witness. -/
theorem elevation_total_negative_iterations_witness :
    (setIterations defaultParams (-1)).uSmallIterations < 0 ∧
      (iterCount (setIterations defaultParams (-1)).uSmallIterations = 0 ∧
        elevation 0 0 0 (setIterations defaultParams (-1))
          = bigWaveTerm 0 0 0 (setIterations defaultParams (-1))) :=
  ⟨by norm_num [setIterations, defaultParams],
    elevation_total_negative_iterations 0 0 0 (setIterations defaultParams (-1))
      (by norm_num [setIterations, defaultParams])⟩

/-- C10: the pseudo-noise output lies in `[0, 1)`, every octave term is
non-negative, the evaluator is monotonically non-increasing in the iteration
count, and (for the documented `uBigWavesElevation ≥ 0`) its value never
exceeds the large-scale swell term alone nor the big-wave amplitude. -/
theorem noise_octaves_monotone (x z t a b c : ℝ) (p : WaveParams) (k k' : ℕ)
    (hk : k ≤ k') (hb : 0 ≤ p.uBigWavesElevation) :
    (0 ≤ cnoise ⟨a, b, c⟩ ∧ cnoise ⟨a, b, c⟩ < 1) ∧
      (∀ i : ℕ, 0 ≤ octaveTerm x z t p i) ∧
      elevation x z t (setIterations p (k' : ℝ))
          ≤ elevation x z t (setIterations p (k : ℝ)) ∧
      elevation x z t p ≤ bigWaveTerm x z t p ∧
      elevation x z t p ≤ p.uBigWavesElevation := by
  have hmono : elevation x z t (setIterations p (k' : ℝ))
      ≤ elevation x z t (setIterations p (k : ℝ)) := by
    rw [elevation_setIterations x z t p k, elevation_setIterations x z t p k']
    have hsub : ∑ i in Finset.Icc 1 k, octaveTerm x z t p i
        ≤ ∑ i in Finset.Icc 1 k', octaveTerm x z t p i :=
      Finset.sum_le_sum_of_subset_of_nonneg (Finset.Icc_subset_Icc_right hk)
        fun i _ _ => octaveTerm_nonneg x z t p i
    linarith
  have hles : elevation x z t p ≤ bigWaveTerm x z t p := by
    unfold elevation
    have hS0 : 0 ≤ ∑ i in Finset.Icc 1 (iterCount p.uSmallIterations),
        octaveTerm x z t p i :=
      Finset.sum_nonneg fun i _ => octaveTerm_nonneg x z t p i
    linarith
  have hbigle : bigWaveTerm x z t p ≤ p.uBigWavesElevation := by
    unfold bigWaveTerm
    obtain ⟨s1, hs1⟩ : ∃ u, u = Real.sin (x * p.uBigWavesFrequencyX + t * p.uBigWavesSpeed) :=
      ⟨_, rfl⟩
    obtain ⟨s2, hs2⟩ : ∃ u, u = Real.sin (z * p.uBigWavesFrequencyY + t * p.uBigWavesSpeed) :=
      ⟨_, rfl⟩
    rw [← hs1, ← hs2]
    have h1 : -1 ≤ s1 := hs1 ▸ Real.neg_one_le_sin _
    have h2 : s1 ≤ 1 := hs1 ▸ Real.sin_le_one _
    have h3 : -1 ≤ s2 := hs2 ▸ Real.neg_one_le_sin _
    have h4 : s2 ≤ 1 := hs2 ▸ Real.sin_le_one _
    have hss : s1 * s2 ≤ 1 := by nlinarith
    nlinarith [hss, hb]
  exact ⟨⟨cnoise_nonneg _, cnoise_lt_one _⟩, fun i => octaveTerm_nonneg x z t p i,
    hmono, hles, le_trans hles hbigle⟩

/-- C10 witness. -/
theorem noise_octaves_monotone_witness :
    (1 : ℕ) ≤ 2 ∧ (0 : ℝ) ≤ defaultParams.uBigWavesElevation ∧
      ((0 ≤ cnoise ⟨0, 0, 0⟩ ∧ cnoise ⟨0, 0, 0⟩ < 1) ∧
        (∀ i : ℕ, 0 ≤ octaveTerm 0 0 0 defaultParams i) ∧
        elevation 0 0 0 (setIterations defaultParams ((2 : ℕ) : ℝ))
            ≤ elevation 0 0 0 (setIterations defaultParams ((1 : ℕ) : ℝ)) ∧
        elevation 0 0 0 defaultParams ≤ bigWaveTerm 0 0 0 defaultParams ∧
        elevation 0 0 0 defaultParams ≤ defaultParams.uBigWavesElevation) :=
  ⟨by norm_num, by norm_num [defaultParams],
    noise_octaves_monotone 0 0 0 0 0 0 defaultParams 1 2 (by norm_num)
      (by norm_num [defaultParams])⟩
